import Mathlib

/-!
# Cutting-plan optimizer: a shallow embedding

This file embeds the two cutting-plan implementations of the repository and
proves the specified properties about them.

* Namespace `Q` embeds the multi-stock first-fit-decreasing packer found in
  `src/js/quotation.js`, method `calculateCuttingPlan` (lines 1788-1879): it
  expands the requirements, sorts them by size descending, and repeatedly
  opens a bar at the largest available stock length, greedily placing the
  first (= largest) piece whose size plus the hard-coded 5mm blade tolerance
  fits the remaining capacity.

* Namespace `CP` embeds the dedicated `CuttingPlan` module
  (`src/unnamed/part_000`): `calculateCuttingPlan` filters and expands the
  requirements (silently skipping invalid ones, warning on oversize ones),
  sorts them descending, computes one candidate solution per stock length
  (perfect-fit first, then best-fit, no kerf) and keeps the candidate with
  the lowest wastage percentage.

Modelling conventions:
* lengths are integers (mm), as in every scenario of the specification;
  the wastage percentages, which JavaScript computes with `/` and `* 100`,
  are rationals;
* a JavaScript arithmetic result that is not a finite number (the `0/0` that
  arises in `wastagePercentage` when no stock was used) is `none : Option ℚ`;
* the source's `while` loops that repeatedly open a new stock bar do not
  always terminate (a piece that fits no bar is never removed from the
  pool); the embedding makes the loop counter explicit as a `fuel`
  argument and returns the still-unplaced pieces, so that a run of the
  JavaScript loop that finishes is exactly a run of the embedding whose
  leftover list is empty.  The inner per-bar loops always terminate (each
  iteration removes one piece), so their fuel — the piece count — is always
  sufficient.
* `console.warn` calls are modelled as a returned list of warned
  requirements; the `waste` and `stockUsage` per-size display summaries of
  `quotation.js` (derived bookkeeping that no claim mentions) are omitted.
-/

namespace Q

/-- A material requirement as consumed by `quotation.js`
`calculateCuttingPlan`: `{sizeInMm, quantity, type, description}`. -/
structure Req where
  sizeInMm : Int
  quantity : Int
  type : String
  description : String
deriving DecidableEq

/-- An expanded piece instance: `{size, type, description}`
(`quotation.js` lines 1801-1805). -/
structure Piece where
  size : Int
  type : String
  description : String
deriving DecidableEq

/-- A stock piece (bar): `{length, remaining, used, cuts}`
(`quotation.js` lines 1824-1829). -/
structure Bar where
  length : Int
  remaining : Int
  used : Int
  cuts : List Piece
deriving DecidableEq

/-- `stockPiece.waste = stockPiece.remaining` (line 1863). -/
def Bar.waste (b : Bar) : Int := b.remaining

/-- Stable descending insertion by `sizeInMm`: `p` goes in front of the first
requirement whose size is not larger.  Models
`[...requirements].sort((a, b) => b.sizeInMm - a.sizeInMm)` (line 1790),
JavaScript's `Array.prototype.sort` being stable. -/
def insertReqDesc (p : Req) : List Req → List Req
  | [] => [p]
  | q :: qs => if q.sizeInMm ≤ p.sizeInMm then p :: q :: qs else q :: insertReqDesc p qs

/-- Stable descending sort of the requirements (line 1790). -/
def sortReqsDesc : List Req → List Req
  | [] => []
  | r :: rs => insertReqDesc r (sortReqsDesc rs)

/-- Expansion of one requirement into `quantity` piece instances
(lines 1799-1806; the loop `for (let i = 0; i < req.quantity; i++)` runs
`quantity` times for an integer quantity, zero times when it is not
positive). -/
def expand (r : Req) : List Piece :=
  List.replicate r.quantity.toNat ⟨r.sizeInMm, r.type, r.description⟩

/-- The expanded pool `allPieces` of `calculateCuttingPlan`: requirements
sorted descending, each expanded by its quantity (lines 1790, 1798-1811). -/
def allPiecesOf (requirements : List Req) : List Piece :=
  ((sortReqsDesc requirements).map expand).flatten

/-- The scan `for (let i = 0; i < allPieces.length; i++) … if (piece.size + 5
<= stockPiece.remaining) … allPieces.splice(i, 1)` (lines 1838-1858): find the
first piece whose size plus the 5mm cut tolerance fits, and return it
together with the pool without it. -/
def extractFirstFit (remaining : Int) : List Piece → Option (Piece × List Piece)
  | [] => none
  | p :: ps =>
    if p.size + 5 ≤ remaining then some (p, ps)
    else
      match extractFirstFit remaining ps with
      | none => none
      | some (q, qs) => some (q, p :: qs)

/-- The inner `while (pieceAdded)` loop (lines 1831-1860): keep placing the
first fitting piece into the bar.  Each placement removes one piece from the
pool, so fuel equal to the pool size never runs out. -/
def fillBarGo : Nat → List Piece → Bar → Bar × List Piece
  | 0, pieces, bar => (bar, pieces)
  | fuel + 1, pieces, bar =>
    match extractFirstFit bar.remaining pieces with
    | none => (bar, pieces)
    | some (p, rest) =>
      fillBarGo fuel rest
        { bar with
          cuts := bar.cuts ++ [p]
          used := bar.used + p.size
          remaining := bar.remaining - (p.size + 5) }

/-- Fill one freshly opened bar of the given stock length (lines 1824-1860). -/
def fillBar (pieces : List Piece) (stockLength : Int) : Bar × List Piece :=
  fillBarGo pieces.length pieces ⟨stockLength, stockLength, 0, []⟩

/-- The outer `while (allPieces.length > 0)` loop (lines 1819-1872): open a
bar at the (maximal) stock length and fill it.  The JavaScript loop runs
forever when a bar accepts no piece; the fuel bounds the number of bars the
embedding materialises, and the second component holds the pieces the
JavaScript loop would still be processing. -/
def packBars : Nat → List Piece → Int → List Bar × List Piece
  | 0, pieces, _ => ([], pieces)
  | _, [], _ => ([], [])
  | fuel + 1, p :: ps, stockLength =>
    let fb := fillBar (p :: ps) stockLength
    let rec1 := packBars fuel fb.2 stockLength
    (fb.1 :: rec1.1, rec1.2)

/-- `if (!stockLengths || stockLengths.length === 0) stockLengths = [6000]`
(lines 1814-1816). -/
def defaultStocks (stockLengths : List Int) : List Int :=
  if stockLengths = [] then [6000] else stockLengths

/-- `Math.max(...stockLengths)` on the (nonempty after defaulting) list
(line 1821).  The `[]` case is unreachable. -/
def listMax : List Int → Int
  | [] => 0
  | x :: xs => xs.foldl max x

/-- `calculateCuttingPlan(requirements, stockLengths)` of `quotation.js`
(lines 1788-1879): the produced stock pieces, plus (embedding only) the
pieces the non-terminating runs never place.  A terminating JavaScript run
places at least one piece per bar, hence uses at most `allPieces.length`
bars, which is the fuel given here; when the returned leftover list is
empty the returned bars are exactly the JavaScript result. -/
def calculateCuttingPlan (requirements : List Req) (stockLengths : List Int) :
    List Bar × List Piece :=
  let allPieces := allPiecesOf requirements
  packBars allPieces.length allPieces (listMax (defaultStocks stockLengths))

/-- Sum of `used` over the bars. -/
def sumUsed (bars : List Bar) : Int := (bars.map (·.used)).sum

/-- Sum of `waste` over the bars (the spec's `totalWaste`). -/
def totalWaste (bars : List Bar) : Int := (bars.map Bar.waste).sum

/-- Total number of placed pieces over the bars. -/
def totalCuts (bars : List Bar) : Nat := (bars.map (·.cuts.length)).sum

/-- Sum of the stock lengths of the bars. -/
def sumLengths (bars : List Bar) : Int := (bars.map (·.length)).sum

end Q

namespace CP

/-- A requirement as consumed by the `CuttingPlan` module, in its
`convertUnits = false` mode (unit conversion is the caller's concern, spec
§6): `{id, size, quantity}`.  The optional `id` is the empty string when
absent. -/
structure Req where
  id : String
  size : Int
  quantity : Int
deriving DecidableEq

/-- An expanded piece: size in mm plus the identifier
`` `${piece.id || 'piece'}_${i + 1}` `` (`part_000` lines 82-89; with
`convertUnits = false` the original size equals `size`, so it is not
duplicated here). -/
structure Piece where
  size : Int
  id : String
deriving DecidableEq

/-- `this.stockLength` is either a single number or an array of stock
lengths (`part_000` lines 96-98, set through `setStockLengths`). -/
inductive StockSetting where
  | single (len : Int)
  | multiple (lens : List Int)
deriving DecidableEq

/-- The guard `pieceSize > this.stockLength` of `part_000` line 76 when
`this.stockLength` is an array: JavaScript coerces the array to a number
(`[] → 0`, `[l] → l`, two or more elements → NaN, and every comparison with
NaN is false). -/
def jsNumGtList (x : Int) : List Int → Bool
  | [] => decide (x > 0)
  | [l] => decide (x > l)
  | _ :: _ :: _ => false

/-- The oversize guard `pieceSize > this.stockLength` (line 76) for either
shape of `this.stockLength`. -/
def jsGtStock (x : Int) : StockSetting → Bool
  | .single l => decide (x > l)
  | .multiple ls => jsNumGtList x ls

/-- The validity guard of line 67: a requirement is kept when
`piece.size` is truthy and positive and `piece.quantity` is truthy and
positive. -/
def validReq (r : Req) : Bool := decide (0 < r.size) && decide (0 < r.quantity)

/-- `piece.id || 'piece'` (line 87): the empty string is falsy. -/
def pieceIdBase (r : Req) : String := if r.id = "" then "piece" else r.id

/-- Expansion of one kept requirement into `quantity` pieces with ids
`` `${piece.id || 'piece'}_${i + 1}` `` (lines 81-89). -/
def expandReq (r : Req) : List Piece :=
  (List.range r.quantity.toNat).map (fun i => ⟨r.size, pieceIdBase r ++ "_" ++ toString (i + 1)⟩)

/-- The `pieces.forEach` of lines 66-90: skip invalid requirements silently,
skip oversize requirements with a `console.warn`, expand the rest.  Returns
(`allPieces` before sorting, the warned requirements in order). -/
def processReqs (setting : StockSetting) : List Req → List Piece × List Req
  | [] => ([], [])
  | r :: rs =>
    let rec1 := processReqs setting rs
    if validReq r = false then rec1
    else if jsGtStock r.size setting then (rec1.1, r :: rec1.2)
    else (expandReq r ++ rec1.1, rec1.2)

/-- Stable descending insertion by `size`, modelling
`allPieces.sort((a, b) => b.size - a.size)` (line 93). -/
def insertPieceDesc (p : Piece) : List Piece → List Piece
  | [] => [p]
  | q :: qs => if q.size ≤ p.size then p :: q :: qs else q :: insertPieceDesc p qs

/-- Stable descending sort of the expanded pieces (line 93). -/
def sortPiecesDesc : List Piece → List Piece
  | [] => []
  | p :: ps => insertPieceDesc p (sortPiecesDesc ps)

/-- Ascending sort of the candidate stock lengths, modelling
`[...this.stockLength].sort((a, b) => a - b)` (line 97). -/
def insertIntAsc (x : Int) : List Int → List Int
  | [] => [x]
  | y :: ys => if x ≤ y then x :: y :: ys else y :: insertIntAsc x ys

/-- Ascending sort of the stock lengths (line 97). -/
def sortIntAsc : List Int → List Int
  | [] => []
  | x :: xs => insertIntAsc x (sortIntAsc xs)

/-- `findPerfectFit` (lines 212-224): index of the first piece whose size
equals the remaining space exactly. -/
def findPerfectFit : List Piece → Int → Option Nat
  | [], _ => none
  | p :: ps, remainingSpace =>
    if p.size = remainingSpace then some 0
    else (findPerfectFit ps remainingSpace).map (· + 1)

/-- The scan of `findBestFit` (lines 232-244), carrying the running
`bestFitIndex` (`none` for `-1`) and `bestFitSize`. -/
def findBestFitGo : List Piece → Int → Nat → Option Nat → Int → Option Nat
  | [], _, _, best, _ => best
  | p :: ps, remainingSpace, i, best, bestSize =>
    if p.size ≤ remainingSpace ∧ bestSize < p.size then
      findBestFitGo ps remainingSpace (i + 1) (some i) p.size
    else
      findBestFitGo ps remainingSpace (i + 1) best bestSize

/-- `findBestFit` (lines 232-244): index of the first piece attaining the
largest size that is positive (`bestFitSize` starts at 0) and no larger than
the remaining space; `none` when nothing fits. -/
def findBestFit (pieces : List Piece) (remainingSpace : Int) : Option Nat :=
  findBestFitGo pieces remainingSpace 0 none 0

/-- Fallback piece for list indexing; the indices produced by the two
finders are always in bounds. -/
def dummyPiece : Piece := ⟨0, ""⟩

/-- The `while (improved)` loop of lines 159-187: place a perfect fit if one
exists, otherwise the best fit, and repeat; stop when neither finder
succeeds.  Each placement `splice`s one piece out of the pool, so fuel equal
to the pool size never runs out.  Returns (placed pieces in placement order,
final remaining space, pool leftover). -/
def fillStockGo : Nat → List Piece → Int → List Piece → List Piece × Int × List Piece
  | 0, pieces, remaining, placed => (placed, remaining, pieces)
  | fuel + 1, pieces, remaining, placed =>
    match findPerfectFit pieces remaining with
    | some i =>
      let p := pieces.getD i dummyPiece
      fillStockGo fuel (pieces.eraseIdx i) (remaining - p.size) (placed ++ [p])
    | none =>
      match findBestFit pieces remaining with
      | some i =>
        let p := pieces.getD i dummyPiece
        fillStockGo fuel (pieces.eraseIdx i) (remaining - p.size) (placed ++ [p])
      | none => (placed, remaining, pieces)

/-- Fill one stock bar starting from its full length (lines 152-187). -/
def fillStock (pieces : List Piece) (stockLength : Int) : List Piece × Int × List Piece :=
  fillStockGo pieces.length pieces stockLength []

/-- A stock bar of the module: `{stockLength, remaining, pieces}`
(lines 152-156). -/
structure Stock where
  stockLength : Int
  remaining : Int
  pieces : List Piece
deriving DecidableEq

/-- The `while (remainingPieces.length > 0)` loop of lines 150-191: open a
new stock and fill it.  A pool all of whose pieces are positive and fit the
stock length is emptied after at most `pieces.length` bars; a piece that fits
no bar keeps the JavaScript loop running forever, which the embedding
signals by a nonempty leftover (second component). -/
def solveStocks : Nat → List Piece → Int → List Stock × List Piece
  | 0, pieces, _ => ([], pieces)
  | _, [], _ => ([], [])
  | fuel + 1, p :: ps, stockLength =>
    let fs := fillStock (p :: ps) stockLength
    let rec1 := solveStocks fuel fs.2.2 stockLength
    (⟨stockLength, fs.2.1, fs.1⟩ :: rec1.1, rec1.2)

/-- The exact rational value of the JavaScript expression `(a / b) * 100`
for integer `a` and `b`: `none` models the non-finite result (`0/0` is NaN)
arising when the denominator is zero.  Stated with `Rat.divInt` so that it
evaluates inside the kernel; `pct_eq_div` below shows it is the textbook
`a / b * 100`. -/
def pct (a b : Int) : Option ℚ := if b = 0 then none else some (Rat.divInt (a * 100) b)

/-- For a nonzero denominator, `pct a b` is exactly `a / b * 100`. -/
theorem pct_eq_div (a b : Int) (hb : b ≠ 0) :
    pct a b = some ((a : ℚ) / (b : ℚ) * 100) := by
  rw [pct, if_neg hb, Rat.divInt_eq_div]
  push_cast
  ring_nf

/-- A candidate solution (lines 198-203), plus (embedding only) the pieces a
diverging JavaScript run never places. -/
structure Solution where
  stockPieces : List Stock
  stockUsed : Nat
  totalWastage : Int
  wastagePercentage : Option ℚ
  leftover : List Piece
deriving DecidableEq

/-- `calculateSolutionForStockLength(pieces, stockLength)` (lines 145-204):
pack all pieces into bars of one stock length, then aggregate
`stockUsed`, `totalWastage` and
`wastagePercentage = totalWastage / (stockUsed * stockLength) * 100`
(`NaN`, i.e. `none`, when no stock was used). -/
def calculateSolutionForStockLength (pieces : List Piece) (stockLength : Int) : Solution :=
  let run := solveStocks pieces.length pieces stockLength
  let stockUsed := run.1.length
  let totalWastage := (run.1.map (·.remaining)).sum
  { stockPieces := run.1
    stockUsed := stockUsed
    totalWastage := totalWastage
    wastagePercentage := pct totalWastage ((stockUsed : Int) * stockLength)
    leftover := run.2 }

/-- The comparison `current.wastagePercentage < best.wastagePercentage` of
line 107; any comparison involving NaN is false. -/
def jsLtOpt (a b : Option ℚ) : Bool :=
  match a, b with
  | some x, some y => decide (x < y)
  | _, _ => false

/-- Fallback solution; `solutions` is nonempty whenever
`calculateCuttingPlan` reaches the `reduce` (`setStockLengths` refuses an
empty stock list), so the `[]` case is unreachable. -/
def emptySolution : Solution := ⟨[], 0, 0, none, []⟩

/-- `solutions.reduce((best, current) => current.wastagePercentage <
best.wastagePercentage ? current : best, solutions[0])` (lines 106-108):
fold over the whole list, seeded with its first element. -/
def pickBest (sols : List Solution) : Solution :=
  match sols with
  | [] => emptySolution
  | s0 :: _ =>
    sols.foldl (fun best cur =>
      if jsLtOpt cur.wastagePercentage best.wastagePercentage then cur else best) s0

/-- A formatted cut piece (lines 121-125); with `convertUnits = false` the
displayed `size` equals `sizeInMm`. -/
structure CutPiece where
  size : Int
  sizeInMm : Int
deriving DecidableEq

/-- A formatted cut (lines 117-129). -/
structure Cut where
  stockNumber : Nat
  stockLength : Int
  pieces : List CutPiece
  wastage : Int
  wastagePercentage : Option ℚ
deriving DecidableEq

/-- The result of `calculateCuttingPlan` (lines 131-136) together with the
observable `this.stockPieces` assignment (line 111) and, embedding only,
the warned requirements (`console.warn`, line 77) and the leftover of a
diverging packing loop. -/
structure PlanResult where
  cuts : List Cut
  stockUsed : Nat
  totalWastage : Int
  wastagePercentage : Option ℚ
  stockPieces : List Stock
  warned : List Req
  leftover : List Piece
deriving DecidableEq

/-- Formatting of the best solution's bars into `this.cuts`
(lines 117-129). -/
def formatCuts (stocks : List Stock) : List Cut :=
  stocks.enum.map (fun e =>
    { stockNumber := e.1 + 1
      stockLength := e.2.stockLength
      pieces := e.2.pieces.map (fun p => ⟨p.size, p.size⟩)
      wastage := e.2.remaining
      wastagePercentage := pct e.2.remaining e.2.stockLength })

/-- `calculateCuttingPlan(pieces, false)` of the `CuttingPlan` module
(lines 47-137): early return on a missing or empty requirement list;
otherwise filter and expand the requirements, sort the pieces descending,
compute one candidate solution per stock length, keep the one with the
lowest wastage percentage, and format it. -/
def calculateCuttingPlan (pieces : List Req) (setting : StockSetting) : PlanResult :=
  if pieces = [] then ⟨[], 0, 0, some 0, [], [], []⟩
  else
    let pr := processReqs setting pieces
    let sorted := sortPiecesDesc pr.1
    let lens :=
      match setting with
      | .single l => [l]
      | .multiple ls => sortIntAsc ls
    let solutions := lens.map (calculateSolutionForStockLength sorted)
    let best := pickBest solutions
    { cuts := formatCuts best.stockPieces
      stockUsed := best.stockUsed
      totalWastage := best.totalWastage
      wastagePercentage := best.wastagePercentage
      stockPieces := best.stockPieces
      warned := pr.2
      leftover := best.leftover }

/-- Total number of expanded piece instances a requirement list calls for
(`quantity` summed over the requirements, ignoring validity). -/
def totalInstances (reqs : List Req) : Nat := (reqs.map (·.quantity.toNat)).sum

/-- Sum of the sizes of a list of pieces. -/
def sumSizes (pieces : List Piece) : Int := (pieces.map (·.size)).sum

/-- Sum of the placed sizes over a list of stock bars (used length). -/
def sumUsedStocks (stocks : List Stock) : Int := (stocks.map (fun st => sumSizes st.pieces)).sum

/-- Sum of the remaining (waste) lengths over a list of stock bars. -/
def sumRemaining (stocks : List Stock) : Int := (stocks.map (·.remaining)).sum

/-- Sum of the stock lengths over a list of stock bars. -/
def sumStockLengths (stocks : List Stock) : Int := (stocks.map (·.stockLength)).sum

end CP

namespace Q

/-- A piece handed out by `extractFirstFit` passed the fit test
`piece.size + 5 <= stockPiece.remaining`. -/
theorem extractFirstFit_fits : ∀ (pieces : List Piece) (remaining : Int) (p : Piece)
    (rest : List Piece), extractFirstFit remaining pieces = some (p, rest) →
    p.size + 5 ≤ remaining := by
  intro pieces
  induction pieces with
  | nil => intro remaining p rest h; simp [extractFirstFit] at h
  | cons q qs ih =>
    intro remaining p rest h
    by_cases hq : q.size + 5 ≤ remaining
    · simp [extractFirstFit, if_pos hq] at h
      exact h.1 ▸ hq
    · simp only [extractFirstFit, if_neg hq] at h
      cases hx : extractFirstFit remaining qs with
      | none => rw [hx] at h; simp at h
      | some pr =>
        rw [hx] at h
        simp at h
        exact h.1 ▸ ih remaining pr.1 pr.2 (by rw [hx])

/-- Filling a bar preserves `used + 5·cuts + remaining = length`, keeps the
stock length, and keeps the remaining capacity non-negative: a piece is only
ever placed when its size plus the 5mm tolerance still fits. -/
theorem fillBarGo_spec : ∀ (fuel : Nat) (pieces : List Piece) (bar : Bar),
    (fillBarGo fuel pieces bar).1.used + 5 * ((fillBarGo fuel pieces bar).1.cuts.length : Int)
        + (fillBarGo fuel pieces bar).1.remaining
      = bar.used + 5 * (bar.cuts.length : Int) + bar.remaining
    ∧ (fillBarGo fuel pieces bar).1.length = bar.length
    ∧ (0 ≤ bar.remaining → 0 ≤ (fillBarGo fuel pieces bar).1.remaining) := by
  intro fuel
  induction fuel with
  | zero => intro pieces bar; exact ⟨rfl, rfl, fun h => h⟩
  | succ n ih =>
    intro pieces bar
    cases hx : extractFirstFit bar.remaining pieces with
    | none =>
      have hr : fillBarGo (n + 1) pieces bar = (bar, pieces) := by
        simp [fillBarGo, hx]
      rw [hr]
      exact ⟨rfl, rfl, fun h => h⟩
    | some pr =>
      have hfit := extractFirstFit_fits pieces bar.remaining pr.1 pr.2 (by rw [hx])
      have hrec := ih pr.2
        { bar with
          cuts := bar.cuts ++ [pr.1]
          used := bar.used + pr.1.size
          remaining := bar.remaining - (pr.1.size + 5) }
      dsimp only at hrec
      have hr : fillBarGo (n + 1) pieces bar =
          fillBarGo n pr.2
            { bar with
              cuts := bar.cuts ++ [pr.1]
              used := bar.used + pr.1.size
              remaining := bar.remaining - (pr.1.size + 5) } := by
        simp [fillBarGo, hx]
      rw [hr]
      refine ⟨?_, hrec.2.1, fun _ => hrec.2.2 (by omega)⟩
      rw [hrec.1]
      simp only [List.length_append, List.length_cons, List.length_nil]
      push_cast
      ring

/-- Every bar produced by the packing loop has the chosen stock length,
satisfies the conservation equation, and (for a non-negative stock length)
has non-negative remaining capacity. -/
theorem packBars_bars : ∀ (fuel : Nat) (pieces : List Piece) (s : Int) (b : Bar),
    b ∈ (packBars fuel pieces s).1 →
    b.length = s ∧ b.used + 5 * (b.cuts.length : Int) + b.remaining = s
      ∧ (0 ≤ s → 0 ≤ b.remaining) := by
  intro fuel
  induction fuel with
  | zero => intro pieces s b hb; simp [packBars] at hb
  | succ n ih =>
    intro pieces s b hb
    cases pieces with
    | nil => simp [packBars] at hb
    | cons p ps =>
      simp only [packBars, List.mem_cons] at hb
      cases hb with
      | inl hb =>
        have hs := fillBarGo_spec (p :: ps).length (p :: ps) ⟨s, s, 0, []⟩
        rw [← fillBar] at hs
        subst hb
        refine ⟨hs.2.1, ?_, fun h0 => hs.2.2 h0⟩
        have := hs.1
        simpa using this
      | inr hb => exact ih _ s b hb

/-- Summing the per-bar conservation equation over a list of bars. -/
theorem sums_of_bars : ∀ bars : List Bar,
    (∀ b ∈ bars, b.used + 5 * (b.cuts.length : Int) + b.remaining = b.length) →
    sumUsed bars + totalWaste bars + 5 * (totalCuts bars : Int) = sumLengths bars := by
  intro bars
  induction bars with
  | nil => intro _; simp [sumUsed, totalWaste, totalCuts, sumLengths]
  | cons b bs ih =>
    intro h
    have hb := h b (List.mem_cons_self b bs)
    have hrest := ih (fun x hx => h x (List.mem_cons_of_mem b hx))
    simp only [sumUsed, totalWaste, totalCuts, sumLengths, List.map_cons, List.sum_cons,
      Bar.waste] at hrest hb ⊢
    push_cast at hrest ⊢
    linarith

/-- The conservation equation for the whole plan of `quotation.js`. -/
theorem calculateCuttingPlan_conservation (reqs : List Req) (stocks : List Int) :
    sumUsed (calculateCuttingPlan reqs stocks).1 + totalWaste (calculateCuttingPlan reqs stocks).1
        + 5 * (totalCuts (calculateCuttingPlan reqs stocks).1 : Int)
      = sumLengths (calculateCuttingPlan reqs stocks).1 := by
  apply sums_of_bars
  intro b hb
  have := packBars_bars (allPiecesOf reqs).length (allPiecesOf reqs)
    (listMax (defaultStocks stocks)) b hb
  rw [this.1]
  exact this.2.1

/-- The initial element is a lower bound of a `foldl max`. -/
theorem le_foldl_max : ∀ (xs : List Int) (x : Int), x ≤ xs.foldl max x := by
  intro xs
  induction xs with
  | nil => intro x; exact le_refl x
  | cons y ys ih =>
    intro x
    calc x ≤ max x y := le_max_left x y
    _ ≤ ys.foldl max (max x y) := ih (max x y)

/-- With every supplied stock length positive, the stock length every bar is
opened at — the maximum after defaulting — is positive. -/
theorem listMax_defaultStocks_pos (stocks : List Int) (h : ∀ s ∈ stocks, 0 < s) :
    0 < listMax (defaultStocks stocks) := by
  cases stocks with
  | nil => decide
  | cons x xs =>
    have hx : (0:Int) < x := h x (List.mem_cons_self x xs)
    have : x ≤ xs.foldl max x := le_foldl_max xs x
    have hne : (x :: xs : List Int) ≠ [] := by simp
    simp only [defaultStocks, if_neg hne, listMax]
    omega

end Q
/-- Claim C2: every bar produced by the `quotation.js` plan has
non-negative waste, because a piece whose size plus the 5mm kerf exceeds
the remaining capacity is never placed: the used length plus kerf never
exceeds the bar's stock length. -/
theorem claim_C2_nonneg_waste (reqs : List Q.Req) (stocks : List Int)
    (h : ∀ s ∈ stocks, 0 < s) :
    ∀ b ∈ (Q.calculateCuttingPlan reqs stocks).1,
      0 ≤ Q.Bar.waste b ∧ b.used + 5 * (b.cuts.length : Int) ≤ b.length := by
  intro b hb
  have hpos := Q.listMax_defaultStocks_pos stocks h
  have hp := Q.packBars_bars _ _ _ b hb
  have h1 := hp.2.2 (le_of_lt hpos)
  refine ⟨h1, ?_⟩
  have h2 := hp.2.1
  rw [hp.1]
  omega

/-- Witness for claim C2 at the concrete input
`requirements = [{1500 × 4}]`, `stock = [6000]`, first produced bar. -/
theorem claim_C2_witness :
    0 ≤ Q.Bar.waste ⟨6000, 1485, 4500, List.replicate 3 ⟨1500, "t", "d"⟩⟩
    ∧ Q.Bar.used ⟨6000, 1485, 4500, List.replicate 3 ⟨1500, "t", "d"⟩⟩
        + 5 * ((Q.Bar.cuts ⟨6000, 1485, 4500, List.replicate 3 ⟨1500, "t", "d"⟩⟩).length : Int)
      ≤ Q.Bar.length ⟨6000, 1485, 4500, List.replicate 3 ⟨1500, "t", "d"⟩⟩ :=
  claim_C2_nonneg_waste [⟨1500, 4, "t", "d"⟩] [6000] (by decide)
    ⟨6000, 1485, 4500, List.replicate 3 ⟨1500, "t", "d"⟩⟩ (by decide)

/-- Claim C3 (code bug): on a requirement of length 6000 with stock
option 6000 — a piece that fits the maximum stock option, as the claimed
precondition demands — the packing loop of `quotation.js` never places the
piece (it would need `6000 + 5 ≤ 6000`): whatever the bar budget, every
opened bar stays empty and the piece remains in the pool, so the
JavaScript `while (allPieces.length > 0)` loop never terminates. -/
theorem claim_C3_divergence :
    (∀ fuel : Nat, Q.packBars fuel [⟨6000, "", ""⟩] 6000
        = (List.replicate fuel ⟨6000, 6000, 0, []⟩, [⟨6000, "", ""⟩]))
    ∧ (Q.calculateCuttingPlan [⟨6000, 1, "", ""⟩] [6000]).2 = [⟨6000, "", ""⟩] := by
  constructor
  · intro fuel
    induction fuel with
    | zero => rfl
    | succ n ih =>
      have hfill : Q.fillBar [⟨6000, "", ""⟩] 6000
          = (⟨6000, 6000, 0, []⟩, [⟨6000, "", ""⟩]) := by decide
      simp [Q.packBars, hfill, ih, List.replicate_succ]
  · decide

/-- Claim C5: the worked kerf scenario — requirements `[{1500 × 4}]`,
stock `[6000]`, kerf 5 — yields exactly two bars, the first with three
pieces and waste 1485, the second with one piece and waste 4495, and total
waste 5980. -/
theorem claim_C5_kerf_scenario :
    Q.calculateCuttingPlan [⟨1500, 4, "t", "d"⟩] [6000]
        = ([⟨6000, 1485, 4500, List.replicate 3 ⟨1500, "t", "d"⟩⟩,
            ⟨6000, 4495, 1500, [⟨1500, "t", "d"⟩]⟩], [])
    ∧ Q.totalWaste (Q.calculateCuttingPlan [⟨1500, 4, "t", "d"⟩] [6000]).1 = 5980 :=
  ⟨by decide, by decide⟩

/-- Counterexample to claim C8 as stated: enlarging the stock-option list
from `[4000]` to its superset `[4000, 6000]` strictly increases the total
waste on the single requirement `{3995 × 1}` (0 grows to 2000), because
the packer always opens bars at the maximum stock length. -/
theorem claim_C8_counterexample :
    Q.totalWaste (Q.calculateCuttingPlan [⟨3995, 1, "", ""⟩] [4000]).1 = 0
    ∧ Q.totalWaste (Q.calculateCuttingPlan [⟨3995, 1, "", ""⟩] [4000, 6000]).1 = 2000
    ∧ Q.totalWaste (Q.calculateCuttingPlan [⟨3995, 1, "", ""⟩] [4000]).1
        < Q.totalWaste (Q.calculateCuttingPlan [⟨3995, 1, "", ""⟩] [4000, 6000]).1 :=
  ⟨by decide, by decide, by decide⟩

/-- Claim C8, amended: the `quotation.js` plan depends on the stock-option
list only through its maximum, so adding options that leave the maximum
unchanged changes nothing — in particular the total waste does not
increase; adding a larger option can increase it (see the
counterexample). -/
theorem claim_C8_same_max (reqs : List Q.Req) (S S' : List Int)
    (h : Q.listMax (Q.defaultStocks S) = Q.listMax (Q.defaultStocks S')) :
    Q.calculateCuttingPlan reqs S = Q.calculateCuttingPlan reqs S'
    ∧ Q.totalWaste (Q.calculateCuttingPlan reqs S').1
        ≤ Q.totalWaste (Q.calculateCuttingPlan reqs S).1 := by
  have he : Q.calculateCuttingPlan reqs S = Q.calculateCuttingPlan reqs S' := by
    unfold Q.calculateCuttingPlan
    rw [h]
  exact ⟨he, le_of_eq (by rw [he])⟩

/-- Witness for the amended claim C8: adding the smaller option 3000 to
`[4000]` leaves the plan for `{1500 × 1}` unchanged. -/
theorem claim_C8_witness :
    Q.calculateCuttingPlan [⟨1500, 1, "", ""⟩] [4000]
        = Q.calculateCuttingPlan [⟨1500, 1, "", ""⟩] [3000, 4000]
    ∧ Q.totalWaste (Q.calculateCuttingPlan [⟨1500, 1, "", ""⟩] [3000, 4000]).1
        ≤ Q.totalWaste (Q.calculateCuttingPlan [⟨1500, 1, "", ""⟩] [4000]).1 :=
  claim_C8_same_max [⟨1500, 1, "", ""⟩] [4000] [3000, 4000] (by decide)


namespace CP

/-- `findPerfectFit` returns `none` exactly when no piece's size equals the
remaining space. -/
theorem findPerfectFit_none_iff : ∀ (ps : List Piece) (r : Int),
    findPerfectFit ps r = none ↔ ∀ p ∈ ps, p.size ≠ r := by
  intro ps
  induction ps with
  | nil => intro r; simp [findPerfectFit]
  | cons p ps ih =>
    intro r
    by_cases hp : p.size = r
    · simp [findPerfectFit, hp]
    · rw [findPerfectFit, if_neg hp, Option.map_eq_none']
      simp only [List.mem_cons]
      constructor
      · intro h q hq
        rcases hq with rfl | hq
        · exact hp
        · exact (ih r).mp h q hq
      · intro h
        exact (ih r).mpr (fun q hq => h q (Or.inr hq))

/-- A successful `findPerfectFit` returns an in-bounds index of a piece
whose size equals the remaining space. -/
theorem findPerfectFit_some_spec : ∀ (ps : List Piece) (r : Int) (i : Nat),
    findPerfectFit ps r = some i →
    i < ps.length ∧ (ps.getD i dummyPiece).size = r := by
  intro ps
  induction ps with
  | nil => intro r i h; simp [findPerfectFit] at h
  | cons p ps ih =>
    intro r i h
    by_cases hp : p.size = r
    · rw [findPerfectFit, if_pos hp] at h
      cases h
      exact ⟨by simp, by simpa using hp⟩
    · rw [findPerfectFit, if_neg hp] at h
      cases hx : findPerfectFit ps r with
      | none => rw [hx] at h; simp at h
      | some j =>
        rw [hx] at h
        simp only [Option.map_some'] at h
        cases h
        have hj := ih r j hx
        exact ⟨by simpa using Nat.succ_lt_succ hj.1, by simpa using hj.2⟩

/-- Case analysis on the `findBestFit` scan: either no piece beats the
running best size within the remaining space and the accumulator is
returned unchanged, or the scan returns the index of a piece that fits,
beats the running best size, and is at least as large as every fitting
piece. -/
theorem findBestFitGo_cases : ∀ (ps : List Piece) (r : Int) (i : Nat)
    (best : Option Nat) (bs : Int),
    (findBestFitGo ps r i best bs = best ∧ ∀ q ∈ ps, ¬(bs < q.size ∧ q.size ≤ r))
    ∨ (∃ j, j < ps.length ∧ findBestFitGo ps r i best bs = some (i + j)
        ∧ bs < (ps.getD j dummyPiece).size ∧ (ps.getD j dummyPiece).size ≤ r
        ∧ ∀ q ∈ ps, q.size ≤ r → q.size ≤ (ps.getD j dummyPiece).size) := by
  intro ps
  induction ps with
  | nil => intro r i best bs; left; exact ⟨rfl, by simp⟩
  | cons p ps ih =>
    intro r i best bs
    by_cases hp : p.size ≤ r ∧ bs < p.size
    · have hgo : findBestFitGo (p :: ps) r i best bs
          = findBestFitGo ps r (i + 1) (some i) p.size := by
        rw [findBestFitGo, if_pos hp]
      rcases ih r (i + 1) (some i) p.size with ⟨heq, hno⟩ | ⟨j, hj, heq, hbs, hle, hmax⟩
      · right
        refine ⟨0, by simp, ?_, by simpa using hp.2, by simpa using hp.1, ?_⟩
        · rw [hgo, heq]
          simp
        · intro q hq hqr
          rcases List.mem_cons.mp hq with rfl | hq
          · simp
          · simp only [List.getD_cons_zero]
            by_contra hlt
            push_neg at hlt
            exact hno q hq ⟨hlt, hqr⟩
      · right
        refine ⟨j + 1, by simpa using hj, ?_, ?_, ?_, ?_⟩
        · rw [hgo, heq]
          congr 1
          omega
        · rw [List.getD_cons_succ]
          exact lt_trans hp.2 hbs
        · rw [List.getD_cons_succ]
          exact hle
        · intro q hq hqr
          rcases List.mem_cons.mp hq with rfl | hq
          · rw [List.getD_cons_succ]
            exact le_of_lt hbs
          · rw [List.getD_cons_succ]
            exact hmax q hq hqr
    · have hgo : findBestFitGo (p :: ps) r i best bs
          = findBestFitGo ps r (i + 1) best bs := by
        rw [findBestFitGo, if_neg hp]
      rcases ih r (i + 1) best bs with ⟨heq, hno⟩ | ⟨j, hj, heq, hbs, hle, hmax⟩
      · left
        refine ⟨by rw [hgo, heq], ?_⟩
        intro q hq
        rcases List.mem_cons.mp hq with rfl | hq
        · intro hc
          exact hp ⟨hc.2, hc.1⟩
        · exact hno q hq
      · right
        refine ⟨j + 1, by simpa using hj, ?_, ?_, ?_, ?_⟩
        · rw [hgo, heq]
          congr 1
          omega
        · rw [List.getD_cons_succ]
          exact hbs
        · rw [List.getD_cons_succ]
          exact hle
        · intro q hq hqr
          rcases List.mem_cons.mp hq with rfl | hq
          · rw [List.getD_cons_succ]
            have hple : q.size ≤ bs := by
              by_contra hc
              push_neg at hc
              exact hp ⟨hqr, hc⟩
            exact le_of_lt (lt_of_le_of_lt hple hbs)
          · rw [List.getD_cons_succ]
            exact hmax q hq hqr

/-- A successful `findBestFit` returns an in-bounds index of a positive
piece that fits and is at least as large as every fitting piece. -/
theorem findBestFit_some_spec (ps : List Piece) (r : Int) (i : Nat)
    (h : findBestFit ps r = some i) :
    i < ps.length ∧ 0 < (ps.getD i dummyPiece).size ∧ (ps.getD i dummyPiece).size ≤ r
      ∧ ∀ q ∈ ps, q.size ≤ r → q.size ≤ (ps.getD i dummyPiece).size := by
  rw [findBestFit] at h
  rcases findBestFitGo_cases ps r 0 none 0 with ⟨heq, _⟩ | ⟨j, hj, heq, hbs, hle, hmax⟩
  · rw [heq] at h
    cases h
  · rw [heq] at h
    have hij : i = j := by
      cases h
      omega
    subst hij
    exact ⟨hj, hbs, hle, hmax⟩

/-- When `findBestFit` fails, no piece both is positive and fits. -/
theorem findBestFit_none_spec (ps : List Piece) (r : Int)
    (h : findBestFit ps r = none) : ∀ q ∈ ps, ¬(0 < q.size ∧ q.size ≤ r) := by
  rw [findBestFit] at h
  rcases findBestFitGo_cases ps r 0 none 0 with ⟨_, hno⟩ | ⟨j, _, heq, _⟩
  · exact hno
  · rw [heq] at h
    cases h

/-- A positive piece that fits guarantees `findBestFit` succeeds. -/
theorem findBestFit_some_of_exists (ps : List Piece) (r : Int)
    (hex : ∃ q ∈ ps, 0 < q.size ∧ q.size ≤ r) : ∃ i, findBestFit ps r = some i := by
  cases hfb : findBestFit ps r with
  | some i => exact ⟨i, rfl⟩
  | none =>
    obtain ⟨q, hq, hpos⟩ := hex
    exact absurd hpos (findBestFit_none_spec ps r hfb q hq)

/-- Splicing index `i` out of a list and putting the element back in front
is a permutation of the list. -/
theorem getD_cons_eraseIdx_perm : ∀ (l : List Piece) (i : Nat), i < l.length →
    (l.getD i dummyPiece :: l.eraseIdx i).Perm l := by
  intro l
  induction l with
  | nil => intro i h; simp at h
  | cons a l ih =>
    intro i h
    cases i with
    | zero => simp [List.eraseIdx]
    | succ n =>
      have hn : n < l.length := by simpa using h
      have hperm := ih n hn
      rw [List.getD_cons_succ, List.eraseIdx_cons_succ]
      exact List.Perm.trans
        (List.Perm.swap a (l.getD n dummyPiece) (l.eraseIdx n)) (hperm.cons a)

end CP

namespace CP

/-- The bar-filling loop extends the placed list, permutes the pool into
placed-plus-leftover, and decreases the remaining space by exactly the sum
of the sizes it places (no kerf). -/
theorem fillStockGo_spec : ∀ (fuel : Nat) (pieces : List Piece) (rem : Int)
    (placed : List Piece),
    ∃ tl, (fillStockGo fuel pieces rem placed).1 = placed ++ tl
      ∧ (tl ++ (fillStockGo fuel pieces rem placed).2.2).Perm pieces
      ∧ sumSizes (fillStockGo fuel pieces rem placed).1
          + (fillStockGo fuel pieces rem placed).2.1 = sumSizes placed + rem := by
  intro fuel
  induction fuel with
  | zero =>
    intro pieces rem placed
    exact ⟨[], by simp [fillStockGo], by simp [fillStockGo], by simp [fillStockGo]⟩
  | succ n ih =>
    intro pieces rem placed
    cases hpf : findPerfectFit pieces rem with
    | some i =>
      have hi := (findPerfectFit_some_spec pieces rem i hpf).1
      have hgo : fillStockGo (n + 1) pieces rem placed
          = fillStockGo n (pieces.eraseIdx i) (rem - (pieces.getD i dummyPiece).size)
              (placed ++ [pieces.getD i dummyPiece]) := by
        simp [fillStockGo, hpf]
      obtain ⟨tl, h1, h2, h3⟩ := ih (pieces.eraseIdx i)
        (rem - (pieces.getD i dummyPiece).size) (placed ++ [pieces.getD i dummyPiece])
      rw [hgo]
      refine ⟨pieces.getD i dummyPiece :: tl, by simpa using h1, ?_, ?_⟩
      · exact List.Perm.trans (h2.cons (pieces.getD i dummyPiece))
          (getD_cons_eraseIdx_perm pieces i hi)
      · rw [h3]
        simp [sumSizes]
    | none =>
      cases hbf : findBestFit pieces rem with
      | some i =>
        have hi := (findBestFit_some_spec pieces rem i hbf).1
        have hgo : fillStockGo (n + 1) pieces rem placed
            = fillStockGo n (pieces.eraseIdx i) (rem - (pieces.getD i dummyPiece).size)
                (placed ++ [pieces.getD i dummyPiece]) := by
          simp [fillStockGo, hpf, hbf]
        obtain ⟨tl, h1, h2, h3⟩ := ih (pieces.eraseIdx i)
          (rem - (pieces.getD i dummyPiece).size) (placed ++ [pieces.getD i dummyPiece])
        rw [hgo]
        refine ⟨pieces.getD i dummyPiece :: tl, by simpa using h1, ?_, ?_⟩
        · exact List.Perm.trans (h2.cons (pieces.getD i dummyPiece))
            (getD_cons_eraseIdx_perm pieces i hi)
        · rw [h3]
          simp [sumSizes]
      | none =>
        have hgo : fillStockGo (n + 1) pieces rem placed = (placed, rem, pieces) := by
          simp [fillStockGo, hpf, hbf]
        rw [hgo]
        exact ⟨[], by simp, by simp, by simp⟩

/-- With enough fuel — and the pool size is always enough — the
bar-filling loop stops only when neither a perfect fit nor a best fit
exists in the leftover pool. -/
theorem fillStockGo_exhaust : ∀ (fuel : Nat) (pieces : List Piece) (rem : Int)
    (placed : List Piece), pieces.length ≤ fuel →
    findPerfectFit (fillStockGo fuel pieces rem placed).2.2
        (fillStockGo fuel pieces rem placed).2.1 = none
    ∧ findBestFit (fillStockGo fuel pieces rem placed).2.2
        (fillStockGo fuel pieces rem placed).2.1 = none := by
  intro fuel
  induction fuel with
  | zero =>
    intro pieces rem placed h
    have h0 : pieces = [] := List.length_eq_zero.mp (Nat.le_zero.mp h)
    subst h0
    exact ⟨rfl, rfl⟩
  | succ n ih =>
    intro pieces rem placed h
    cases hpf : findPerfectFit pieces rem with
    | some i =>
      have hi := (findPerfectFit_some_spec pieces rem i hpf).1
      have hlen : (pieces.eraseIdx i).length ≤ n := by
        have hl := (getD_cons_eraseIdx_perm pieces i hi).length_eq
        simp only [List.length_cons] at hl
        omega
      have hgo : fillStockGo (n + 1) pieces rem placed
          = fillStockGo n (pieces.eraseIdx i) (rem - (pieces.getD i dummyPiece).size)
              (placed ++ [pieces.getD i dummyPiece]) := by
        simp [fillStockGo, hpf]
      rw [hgo]
      exact ih _ _ _ hlen
    | none =>
      cases hbf : findBestFit pieces rem with
      | some i =>
        have hi := (findBestFit_some_spec pieces rem i hbf).1
        have hlen : (pieces.eraseIdx i).length ≤ n := by
          have hl := (getD_cons_eraseIdx_perm pieces i hi).length_eq
          simp only [List.length_cons] at hl
          omega
        have hgo : fillStockGo (n + 1) pieces rem placed
            = fillStockGo n (pieces.eraseIdx i) (rem - (pieces.getD i dummyPiece).size)
                (placed ++ [pieces.getD i dummyPiece]) := by
          simp [fillStockGo, hpf, hbf]
        rw [hgo]
        exact ih _ _ _ hlen
      | none =>
        have hgo : fillStockGo (n + 1) pieces rem placed = (placed, rem, pieces) := by
          simp [fillStockGo, hpf, hbf]
        rw [hgo]
        exact ⟨hpf, hbf⟩

/-- Specification of filling one fresh stock bar: the placed pieces plus
the leftover pool permute the input pool; placed sizes plus final remaining
equal the stock length (no kerf); and nothing in the leftover pool fits any
more. -/
theorem fillStock_spec (pieces : List Piece) (s : Int) :
    ((fillStock pieces s).1 ++ (fillStock pieces s).2.2).Perm pieces
    ∧ sumSizes (fillStock pieces s).1 + (fillStock pieces s).2.1 = s
    ∧ findPerfectFit (fillStock pieces s).2.2 (fillStock pieces s).2.1 = none
    ∧ findBestFit (fillStock pieces s).2.2 (fillStock pieces s).2.1 = none := by
  obtain ⟨tl, h1, h2, h3⟩ := fillStockGo_spec pieces.length pieces s []
  have hex := fillStockGo_exhaust pieces.length pieces s [] (le_refl _)
  simp only [fillStock]
  refine ⟨?_, ?_, hex.1, hex.2⟩
  · rw [h1]
    simpa using h2
  · simpa [sumSizes] using h3

/-- The placed pieces and the leftover pool of a bar partition the input
pool by count. -/
theorem fillStock_pool_length (pieces : List Piece) (s : Int) :
    (fillStock pieces s).1.length + (fillStock pieces s).2.2.length = pieces.length := by
  have h := ((fillStock_spec pieces s).1).length_eq
  simpa using h

/-- A nonempty pool whose pieces are all positive and fit the stock length
loses at least one piece to a fresh bar: the packing loop makes progress. -/
theorem fillStock_places (pieces : List Piece) (s : Int) (hne : pieces ≠ [])
    (hgood : ∀ q ∈ pieces, 0 < q.size ∧ q.size ≤ s) :
    (fillStock pieces s).2.2.length < pieces.length := by
  have hspec := fillStock_spec pieces s
  have hplaced : (fillStock pieces s).1 ≠ [] := by
    intro h0
    have hperm := hspec.1
    rw [h0] at hperm
    simp only [List.nil_append] at hperm
    have hrem : (fillStock pieces s).2.1 = s := by
      have h3 := hspec.2.1
      rw [h0] at h3
      simpa [sumSizes] using h3
    cases pieces with
    | nil => exact hne rfl
    | cons p ps =>
      have hp : p ∈ (fillStock (p :: ps) s).2.2 :=
        hperm.mem_iff.mpr (List.mem_cons_self p ps)
      have hbf := hspec.2.2.2
      rw [hrem] at hbf
      exact findBestFit_none_spec _ s hbf p hp (hgood p (List.mem_cons_self p ps))
  have hl := fillStock_pool_length pieces s
  have hpos : 0 < (fillStock pieces s).1.length := List.length_pos.mpr hplaced
  omega

/-- Every bar of a candidate solution carries the candidate stock length
and satisfies the kerf-free conservation equation. -/
theorem solveStocks_bars : ∀ (fuel : Nat) (pieces : List Piece) (s : Int) (st : Stock),
    st ∈ (solveStocks fuel pieces s).1 →
    st.stockLength = s ∧ sumSizes st.pieces + st.remaining = s := by
  intro fuel
  induction fuel with
  | zero => intro pieces s st h; simp [solveStocks] at h
  | succ n ih =>
    intro pieces s st h
    cases pieces with
    | nil => simp [solveStocks] at h
    | cons p ps =>
      simp only [solveStocks, List.mem_cons] at h
      rcases h with rfl | h
      · exact ⟨rfl, (fillStock_spec (p :: ps) s).2.1⟩
      · exact ih _ s st h

/-- The pieces placed across all bars of a candidate solution, together
with its leftover, permute the input pool. -/
theorem solveStocks_perm : ∀ (fuel : Nat) (pieces : List Piece) (s : Int),
    (((solveStocks fuel pieces s).1.map (·.pieces)).flatten
        ++ (solveStocks fuel pieces s).2).Perm pieces := by
  intro fuel
  induction fuel with
  | zero => intro pieces s; simp [solveStocks]
  | succ n ih =>
    intro pieces s
    cases pieces with
    | nil => simp [solveStocks]
    | cons p ps =>
      simp only [solveStocks, List.map_cons, List.flatten_cons, List.append_assoc]
      exact List.Perm.trans (List.Perm.append_left (fillStock (p :: ps) s).1 (ih _ s))
        (fillStock_spec (p :: ps) s).1

/-- With enough fuel — one bar per piece suffices — a pool of positive
pieces that all fit the stock length is packed completely: no leftover. -/
theorem solveStocks_leftover_nil : ∀ (fuel : Nat) (pieces : List Piece) (s : Int),
    pieces.length ≤ fuel → (∀ q ∈ pieces, 0 < q.size ∧ q.size ≤ s) →
    (solveStocks fuel pieces s).2 = [] := by
  intro fuel
  induction fuel with
  | zero =>
    intro pieces s h _
    have h0 : pieces = [] := List.length_eq_zero.mp (Nat.le_zero.mp h)
    subst h0
    rfl
  | succ n ih =>
    intro pieces s h hgood
    cases pieces with
    | nil => rfl
    | cons p ps =>
      have hplace := fillStock_places (p :: ps) s (by simp) hgood
      have hsub : ∀ q ∈ (fillStock (p :: ps) s).2.2, 0 < q.size ∧ q.size ≤ s := by
        intro q hq
        exact hgood q ((fillStock_spec (p :: ps) s).1.mem_iff.mp
          (List.mem_append_right _ hq))
      have hlen : (fillStock (p :: ps) s).2.2.length ≤ n := by
        simp only [List.length_cons] at h hplace
        omega
      simp only [solveStocks]
      exact ih _ s hlen hsub

/-- Bars of `calculateSolutionForStockLength` carry its stock length and
satisfy the kerf-free conservation equation. -/
theorem calculateSolution_bars (pieces : List Piece) (s : Int) (st : Stock)
    (h : st ∈ (calculateSolutionForStockLength pieces s).stockPieces) :
    st.stockLength = s ∧ sumSizes st.pieces + st.remaining = s :=
  solveStocks_bars pieces.length pieces s st h

/-- The pieces placed by `calculateSolutionForStockLength` plus its
leftover permute the input pool. -/
theorem calculateSolution_perm (pieces : List Piece) (s : Int) :
    (((calculateSolutionForStockLength pieces s).stockPieces.map (·.pieces)).flatten
        ++ (calculateSolutionForStockLength pieces s).leftover).Perm pieces :=
  solveStocks_perm pieces.length pieces s

/-- A pool of positive pieces that all fit the stock length leaves no
leftover in `calculateSolutionForStockLength`. -/
theorem calculateSolution_leftover (pieces : List Piece) (s : Int)
    (hgood : ∀ q ∈ pieces, 0 < q.size ∧ q.size ≤ s) :
    (calculateSolutionForStockLength pieces s).leftover = [] :=
  solveStocks_leftover_nil pieces.length pieces s (le_refl _) hgood

end CP

namespace CP

/-- Every piece of an expanded requirement carries the requirement's
size. -/
theorem expandReq_size (r : Req) (q : Piece) (h : q ∈ expandReq r) : q.size = r.size := by
  simp only [expandReq, List.mem_map] at h
  obtain ⟨i, _, rfl⟩ := h
  rfl

/-- Every expanded piece comes from a kept — valid and not oversize —
requirement of the input list and carries that requirement's size. -/
theorem processReqs_mem (setting : StockSetting) : ∀ (reqs : List Req) (q : Piece),
    q ∈ (processReqs setting reqs).1 →
    ∃ r ∈ reqs, validReq r = true ∧ jsGtStock r.size setting = false ∧ q.size = r.size := by
  intro reqs
  induction reqs with
  | nil => intro q hq; simp [processReqs] at hq
  | cons r rs ih =>
    intro q hq
    cases hval : validReq r with
    | false =>
      simp only [processReqs, hval, if_pos] at hq
      obtain ⟨r2, hr2, h2⟩ := ih q hq
      exact ⟨r2, List.mem_cons_of_mem r hr2, h2⟩
    | true =>
      cases hg : jsGtStock r.size setting with
      | true =>
        simp only [processReqs, hval, hg] at hq
        obtain ⟨r2, hr2, h2⟩ := ih q hq
        exact ⟨r2, List.mem_cons_of_mem r hr2, h2⟩
      | false =>
        simp only [processReqs, hval, hg] at hq
        simp only [Bool.false_eq_true, if_false] at hq
        rcases List.mem_append.mp hq with hq | hq
        · exact ⟨r, List.mem_cons_self r rs, hval, hg, expandReq_size r q hq⟩
        · obtain ⟨r2, hr2, h2⟩ := ih q hq
          exact ⟨r2, List.mem_cons_of_mem r hr2, h2⟩

/-- Filtering out the invalid requirements first changes nothing: the
`forEach` skips them anyway. -/
theorem processReqs_filter_valid (setting : StockSetting) : ∀ (reqs : List Req),
    processReqs setting (reqs.filter validReq) = processReqs setting reqs := by
  intro reqs
  induction reqs with
  | nil => rfl
  | cons r rs ih =>
    cases hval : validReq r with
    | false =>
      rw [List.filter_cons_of_neg (by simp [hval])]
      rw [ih]
      simp [processReqs, hval]
    | true =>
      rw [List.filter_cons_of_pos (by simp [hval])]
      simp only [processReqs, ih]

/-- Inserting into the stable descending piece sort permutes consing. -/
theorem insertPieceDesc_perm (p : Piece) : ∀ l : List Piece,
    (insertPieceDesc p l).Perm (p :: l) := by
  intro l
  induction l with
  | nil => exact List.Perm.refl _
  | cons q qs ih =>
    rw [insertPieceDesc]
    by_cases hq : q.size ≤ p.size
    · rw [if_pos hq]
    · rw [if_neg hq]
      exact List.Perm.trans (ih.cons q) (List.Perm.swap p q qs)

/-- The descending piece sort permutes its input. -/
theorem sortPiecesDesc_perm : ∀ l : List Piece, (sortPiecesDesc l).Perm l := by
  intro l
  induction l with
  | nil => exact List.Perm.refl _
  | cons p ps ih =>
    exact List.Perm.trans (insertPieceDesc_perm p (sortPiecesDesc ps)) (ih.cons p)

/-- Inserting into the ascending stock-length sort permutes consing. -/
theorem insertIntAsc_perm (x : Int) : ∀ l : List Int,
    (insertIntAsc x l).Perm (x :: l) := by
  intro l
  induction l with
  | nil => exact List.Perm.refl _
  | cons y ys ih =>
    rw [insertIntAsc]
    by_cases hy : x ≤ y
    · rw [if_pos hy]
    · rw [if_neg hy]
      exact List.Perm.trans (ih.cons y) (List.Perm.swap x y ys)

/-- The ascending stock-length sort permutes its input. -/
theorem sortIntAsc_perm : ∀ l : List Int, (sortIntAsc l).Perm l := by
  intro l
  induction l with
  | nil => exact List.Perm.refl _
  | cons x xs ih =>
    exact List.Perm.trans (insertIntAsc_perm x (sortIntAsc xs)) (ih.cons x)

/-- The NaN-aware strict comparison is irreflexive. -/
theorem jsLtOpt_irrefl (a : Option ℚ) : jsLtOpt a a = false := by
  cases a with
  | none => rfl
  | some x => simp [jsLtOpt]

/-- The NaN-aware strict comparison is transitive. -/
theorem jsLtOpt_trans {a b c : Option ℚ} (h1 : jsLtOpt a b = true)
    (h2 : jsLtOpt b c = true) : jsLtOpt a c = true := by
  cases a with
  | none => simp [jsLtOpt] at h1
  | some x =>
    cases b with
    | none => simp [jsLtOpt] at h1
    | some y =>
      cases c with
      | none => simp [jsLtOpt] at h2
      | some z =>
        simp only [jsLtOpt, decide_eq_true_eq] at h1 h2 ⊢
        exact lt_trans h1 h2

/-- The NaN-aware strict comparison is asymmetric. -/
theorem jsLtOpt_asymm {a b : Option ℚ} (h : jsLtOpt a b = true) :
    jsLtOpt b a = false := by
  cases a with
  | none => simp [jsLtOpt] at h
  | some x =>
    cases b with
    | none => simp [jsLtOpt] at h
    | some y =>
      simp only [jsLtOpt, decide_eq_true_eq, decide_eq_false_iff_not] at h ⊢
      exact not_lt_of_lt h

/-- Invariant of the `reduce` fold of line 106: the running value is the
seed or an element of the processed list, nothing processed compares
strictly below the final value, and the final value is the seed or
compares strictly below it. -/
theorem foldlPick_spec : ∀ (l : List Solution) (acc : Solution),
    ((l.foldl (fun best cur =>
        if jsLtOpt cur.wastagePercentage best.wastagePercentage then cur else best) acc = acc
      ∨ (l.foldl (fun best cur =>
        if jsLtOpt cur.wastagePercentage best.wastagePercentage then cur else best) acc) ∈ l)
    ∧ (∀ x ∈ l, jsLtOpt x.wastagePercentage
        ((l.foldl (fun best cur =>
          if jsLtOpt cur.wastagePercentage best.wastagePercentage then cur else best) acc)).wastagePercentage = false)
    ∧ ((l.foldl (fun best cur =>
          if jsLtOpt cur.wastagePercentage best.wastagePercentage then cur else best) acc) = acc
      ∨ jsLtOpt ((l.foldl (fun best cur =>
          if jsLtOpt cur.wastagePercentage best.wastagePercentage then cur else best) acc)).wastagePercentage
          acc.wastagePercentage = true)) := by
  intro l
  induction l with
  | nil => intro acc; exact ⟨Or.inl rfl, by simp, Or.inl rfl⟩
  | cons x xs ih =>
    intro acc
    by_cases hx : jsLtOpt x.wastagePercentage acc.wastagePercentage = true
    · simp only [List.foldl_cons, if_pos hx]
      obtain ⟨hmem, hmin, hchain⟩ := ih x
      refine ⟨?_, ?_, ?_⟩
      · rcases hmem with heq | hmem
        · exact Or.inr (by rw [heq]; exact List.mem_cons_self x xs)
        · exact Or.inr (List.mem_cons_of_mem x hmem)
      · intro y hy
        rcases List.mem_cons.mp hy with rfl | hy
        · rcases hchain with heq | hlt
          · rw [heq]
            exact jsLtOpt_irrefl _
          · exact jsLtOpt_asymm hlt
        · exact hmin y hy
      · rcases hchain with heq | hlt
        · exact Or.inr (by rw [heq]; exact hx)
        · exact Or.inr (jsLtOpt_trans hlt hx)
    · simp only [List.foldl_cons, if_neg hx]
      obtain ⟨hmem, hmin, hchain⟩ := ih acc
      refine ⟨?_, ?_, ?_⟩
      · rcases hmem with heq | hmem
        · exact Or.inl heq
        · exact Or.inr (List.mem_cons_of_mem x hmem)
      · intro y hy
        rcases List.mem_cons.mp hy with rfl | hy
        · rcases hchain with heq | hlt
          · rw [heq]
            exact Bool.not_eq_true _ ▸ (by simpa using hx)
          · cases hcc : jsLtOpt y.wastagePercentage
              ((xs.foldl (fun best cur =>
                if jsLtOpt cur.wastagePercentage best.wastagePercentage then cur else best) acc)).wastagePercentage with
            | false => rfl
            | true => exact absurd (jsLtOpt_trans hcc hlt) hx
        · exact hmin y hy
      · exact hchain

/-- `pickBest` of a nonempty list returns an element no other element
compares strictly below. -/
theorem pickBest_spec (sols : List Solution) (h : sols ≠ []) :
    pickBest sols ∈ sols
    ∧ ∀ x ∈ sols, jsLtOpt x.wastagePercentage (pickBest sols).wastagePercentage = false := by
  cases sols with
  | nil => exact absurd rfl h
  | cons s0 rest =>
    obtain ⟨hmem, hmin, _⟩ := foldlPick_spec (s0 :: rest) s0
    constructor
    · rcases hmem with heq | hmem
      · rw [pickBest, heq]
        exact List.mem_cons_self s0 rest
      · exact hmem
    · exact hmin

/-- `pickBest` either is the unreachable empty fallback or an element of
its input. -/
theorem pickBest_mem_or_empty (sols : List Solution) :
    pickBest sols = emptySolution ∨ pickBest sols ∈ sols := by
  cases sols with
  | nil => exact Or.inl rfl
  | cons s0 rest => exact Or.inr (pickBest_spec (s0 :: rest) (by simp)).1

/-- The payload of an `enumFrom` entry is an element of the list. -/
theorem snd_mem_of_mem_enumFrom : ∀ (l : List Stock) (n : Nat) (e : Nat × Stock),
    e ∈ l.enumFrom n → e.2 ∈ l := by
  intro l
  induction l with
  | nil => intro n e he; simp [List.enumFrom] at he
  | cons a l ih =>
    intro n e he
    rw [List.enumFrom] at he
    rcases List.mem_cons.mp he with rfl | he
    · exact List.mem_cons_self a l
    · exact List.mem_cons_of_mem a (ih (n + 1) e he)

/-- Every formatted cut takes its stock length from one of the bars. -/
theorem formatCuts_stockLength (stocks : List Stock) (c : Cut) (h : c ∈ formatCuts stocks) :
    ∃ st ∈ stocks, c.stockLength = st.stockLength := by
  simp only [formatCuts, List.mem_map] at h
  obtain ⟨e, he, rfl⟩ := h
  exact ⟨e.2, snd_mem_of_mem_enumFrom stocks 0 e (by simpa [List.enum] using he), rfl⟩

/-- Summing the kerf-free per-bar conservation equation over bars. -/
theorem sums_of_stocks : ∀ stocks : List Stock,
    (∀ st ∈ stocks, sumSizes st.pieces + st.remaining = st.stockLength) →
    sumUsedStocks stocks + sumRemaining stocks = sumStockLengths stocks := by
  intro stocks
  induction stocks with
  | nil => intro _; simp [sumUsedStocks, sumRemaining, sumStockLengths]
  | cons st sts ih =>
    intro h
    have hst := h st (List.mem_cons_self st sts)
    have hrest := ih (fun x hx => h x (List.mem_cons_of_mem st hx))
    simp only [sumUsedStocks, sumRemaining, sumStockLengths, List.map_cons,
      List.sum_cons] at hrest ⊢
    linarith

end CP

namespace CP

/-- `pickBest` of a singleton list is its element (the fold compares the
element with itself). -/
theorem pickBest_singleton (x : Solution) : pickBest [x] = x := by
  simp [pickBest]

/-- Every bar of the solution chosen by `pickBest` over candidate
solutions satisfies the kerf-free conservation equation. -/
theorem mem_pickBest_map_stocks (pieces : List Piece) (lens : List Int) (st : Stock)
    (hst : st ∈ (pickBest (lens.map (calculateSolutionForStockLength pieces))).stockPieces) :
    sumSizes st.pieces + st.remaining = st.stockLength := by
  rcases pickBest_mem_or_empty (lens.map (calculateSolutionForStockLength pieces)) with
    heq | hmem
  · rw [heq] at hst
    simp [emptySolution] at hst
  · obtain ⟨l, _, hfl⟩ := List.mem_map.mp hmem
    rw [← hfl] at hst
    have h2 := calculateSolution_bars pieces l st hst
    rw [h2.1]
    exact h2.2

/-- Every bar the `CuttingPlan` module returns satisfies the kerf-free
conservation equation. -/
theorem calculateCuttingPlan_stocks (reqs : List Req) (setting : StockSetting)
    (st : Stock) (hst : st ∈ (calculateCuttingPlan reqs setting).stockPieces) :
    sumSizes st.pieces + st.remaining = st.stockLength := by
  by_cases hreq : reqs = []
  · subst hreq
    simp [calculateCuttingPlan] at hst
  · simp only [calculateCuttingPlan, if_neg hreq] at hst
    exact mem_pickBest_map_stocks _ _ st hst

end CP

/-- Claim C1: conservation of bar length.  In the `quotation.js` packer,
used length plus waste plus the 5mm kerf per placed piece sums, over all
bars, to the summed stock length; in the `CuttingPlan` module (which
applies no kerf) used length plus waste sums to the summed stock length. -/
theorem claim_C1_conservation :
    (∀ (reqs : List Q.Req) (stocks : List Int),
      Q.sumUsed (Q.calculateCuttingPlan reqs stocks).1
        + Q.totalWaste (Q.calculateCuttingPlan reqs stocks).1
        + 5 * (Q.totalCuts (Q.calculateCuttingPlan reqs stocks).1 : Int)
      = Q.sumLengths (Q.calculateCuttingPlan reqs stocks).1)
    ∧ (∀ (reqs : List CP.Req) (setting : CP.StockSetting),
      CP.sumUsedStocks (CP.calculateCuttingPlan reqs setting).stockPieces
        + CP.sumRemaining (CP.calculateCuttingPlan reqs setting).stockPieces
      = CP.sumStockLengths (CP.calculateCuttingPlan reqs setting).stockPieces) := by
  constructor
  · exact fun reqs stocks => Q.calculateCuttingPlan_conservation reqs stocks
  · intro reqs setting
    exact CP.sums_of_stocks _ (fun st hst => CP.calculateCuttingPlan_stocks reqs setting st hst)

/-- Counterexample to claim C4 as stated: for the oversize requirement
`{size 7000, quantity 2}` with stock 6000, two expanded piece instances are
called for, none is placed, and the module reports a single warning for the
whole requirement — so the placed pieces and the reported entries do not
add up to one entry per expanded instance. -/
theorem claim_C4_counterexample :
    ((CP.calculateCuttingPlan [⟨"a", 7000, 2⟩] (.single 6000)).stockPieces.map
        (fun st => st.pieces)).flatten.length
      + (CP.calculateCuttingPlan [⟨"a", 7000, 2⟩] (.single 6000)).warned.length
      < CP.totalInstances [⟨"a", 7000, 2⟩] := by decide

/-- Claim C4, amended: in the single-stock mode of the `CuttingPlan`
module, the pieces placed across all bars are exactly (as a multiset) the
expanded instances of the kept requirements — each placed exactly once,
none dropped; requirements that are valid but oversize are reported once
per requirement (not once per instance) in the warning list, and invalid
requirements are skipped without any report. -/
theorem claim_C4_partition (reqs : List CP.Req) (s : Int) :
    (((CP.calculateCuttingPlan reqs (.single s)).stockPieces.map
        (fun st => st.pieces)).flatten).Perm (CP.processReqs (.single s) reqs).1
    ∧ (CP.calculateCuttingPlan reqs (.single s)).warned
        = (CP.processReqs (.single s) reqs).2
    ∧ (CP.calculateCuttingPlan reqs (.single s)).leftover = [] := by
  by_cases hreq : reqs = []
  · subst hreq
    exact ⟨by simp [CP.calculateCuttingPlan, CP.processReqs], rfl, rfl⟩
  · have hgood : ∀ q ∈ CP.sortPiecesDesc (CP.processReqs (.single s) reqs).1,
        0 < q.size ∧ q.size ≤ s := by
      intro q hq
      have hq2 : q ∈ (CP.processReqs (.single s) reqs).1 :=
        (CP.sortPiecesDesc_perm _).mem_iff.mp hq
      obtain ⟨r, _, hval, hg, hsz⟩ := CP.processReqs_mem _ reqs q hq2
      constructor
      · rw [hsz]
        simp only [CP.validReq, Bool.and_eq_true, decide_eq_true_eq] at hval
        exact hval.1
      · rw [hsz]
        simp only [CP.jsGtStock, decide_eq_false_iff_not, not_lt] at hg
        exact hg
    have hl : (CP.calculateSolutionForStockLength
        (CP.sortPiecesDesc (CP.processReqs (.single s) reqs).1) s).leftover = [] :=
      CP.calculateSolution_leftover _ s hgood
    have hperm := CP.calculateSolution_perm
      (CP.sortPiecesDesc (CP.processReqs (.single s) reqs).1) s
    rw [hl, List.append_nil] at hperm
    simp only [CP.calculateCuttingPlan, if_neg hreq, List.map_cons, List.map_nil,
      CP.pickBest_singleton]
    refine ⟨List.Perm.trans hperm (CP.sortPiecesDesc_perm _), ?_, ?_⟩
    · trivial
    · exact hl

/-- Counterexample to claim C6 as stated: a requirement list containing the
invalid requirement `{size -5, quantity 1}` does not raise any error — the
module silently skips it and returns a complete packing of the remaining
valid requirement. -/
theorem claim_C6_counterexample :
    CP.calculateCuttingPlan [⟨"a", -5, 1⟩, ⟨"b", 1000, 1⟩] (.single 6000)
      = ⟨[⟨1, 6000, [⟨1000, 1000⟩], 5000, some (mkRat 250 3)⟩], 1, 5000,
          some (mkRat 250 3), [⟨6000, 5000, [⟨1000, "b_1"⟩]⟩], [], []⟩ := by decide

/-- Claim C6, amended: the `CuttingPlan` module never raises a validation
error; a requirement with non-positive size or non-positive quantity is
silently skipped (dropping it beforehand changes nothing) and packing
proceeds for the remaining requirements, returning a complete result. -/
theorem claim_C6_invalid_skipped (reqs : List CP.Req) (setting : CP.StockSetting)
    (h : ∃ r ∈ reqs, CP.validReq r = true) :
    CP.calculateCuttingPlan reqs setting
      = CP.calculateCuttingPlan (reqs.filter CP.validReq) setting := by
  obtain ⟨r, hr, hv⟩ := h
  have h1 : reqs ≠ [] := by
    intro h0
    rw [h0] at hr
    simp at hr
  have h2 : reqs.filter CP.validReq ≠ [] :=
    List.ne_nil_of_mem (List.mem_filter.mpr ⟨hr, hv⟩)
  simp only [CP.calculateCuttingPlan, if_neg h1, if_neg h2, CP.processReqs_filter_valid]

/-- Witness for the amended claim C6: dropping the invalid requirement
`{size -5}` beforehand leaves the result unchanged. -/
theorem claim_C6_witness :
    CP.calculateCuttingPlan [⟨"a", -5, 1⟩, ⟨"b", 1000, 2⟩] (.single 6000)
      = CP.calculateCuttingPlan [⟨"b", 1000, 2⟩] (.single 6000) := by
  have h := claim_C6_invalid_skipped [⟨"a", -5, 1⟩, ⟨"b", 1000, 2⟩] (.single 6000)
    ⟨⟨"b", 1000, 2⟩, by decide, by decide⟩
  exact h.trans (by decide)

/-- Claim C7: single-stock bar filling.  Filling a bar of remaining
capacity `r` subtracts no kerf (placed sizes plus final remaining equal
`r`); it stops only when neither finder succeeds on the leftover; when some
piece's size equals the capacity exactly, such a piece is placed first;
otherwise, when some positive piece fits, the piece placed first fits and
is at least as large as every piece that fits. -/
theorem claim_C7_perfect_best_fit (pieces : List CP.Piece) (r : Int) :
    CP.sumSizes (CP.fillStock pieces r).1 + (CP.fillStock pieces r).2.1 = r
    ∧ CP.findPerfectFit (CP.fillStock pieces r).2.2 (CP.fillStock pieces r).2.1 = none
    ∧ CP.findBestFit (CP.fillStock pieces r).2.2 (CP.fillStock pieces r).2.1 = none
    ∧ ((∃ p ∈ pieces, p.size = r) →
        ∃ p tl, (CP.fillStock pieces r).1 = p :: tl ∧ p.size = r)
    ∧ ((∀ p ∈ pieces, p.size ≠ r) → ∀ q ∈ pieces, 0 < q.size → q.size ≤ r →
        ∃ p tl, (CP.fillStock pieces r).1 = p :: tl ∧ 0 < p.size ∧ p.size ≤ r
          ∧ ∀ q2 ∈ pieces, q2.size ≤ r → q2.size ≤ p.size) := by
  have hspec := CP.fillStock_spec pieces r
  refine ⟨hspec.2.1, hspec.2.2.1, hspec.2.2.2, ?_, ?_⟩
  · rintro ⟨p, hp, hsz⟩
    cases pieces with
    | nil => simp at hp
    | cons hd tl =>
      cases hpf : CP.findPerfectFit (hd :: tl) r with
      | none =>
        exact absurd hsz ((CP.findPerfectFit_none_iff (hd :: tl) r).mp hpf p hp)
      | some i =>
        have hps := CP.findPerfectFit_some_spec (hd :: tl) r i hpf
        have hgo : CP.fillStock (hd :: tl) r
            = CP.fillStockGo tl.length ((hd :: tl).eraseIdx i)
                (r - ((hd :: tl).getD i CP.dummyPiece).size)
                [(hd :: tl).getD i CP.dummyPiece] := by
          simp [CP.fillStock, CP.fillStockGo, hpf]
        obtain ⟨tl2, h1, _, _⟩ := CP.fillStockGo_spec tl.length ((hd :: tl).eraseIdx i)
          (r - ((hd :: tl).getD i CP.dummyPiece).size) [(hd :: tl).getD i CP.dummyPiece]
        refine ⟨(hd :: tl).getD i CP.dummyPiece, tl2, ?_, hps.2⟩
        rw [hgo, h1]
        rfl
  · intro hno q hq hqpos hqle
    have hpf : CP.findPerfectFit pieces r = none :=
      (CP.findPerfectFit_none_iff pieces r).mpr hno
    obtain ⟨i, hbf⟩ := CP.findBestFit_some_of_exists pieces r ⟨q, hq, hqpos, hqle⟩
    have hbs := CP.findBestFit_some_spec pieces r i hbf
    cases pieces with
    | nil => simp at hq
    | cons hd tl =>
      have hgo : CP.fillStock (hd :: tl) r
          = CP.fillStockGo tl.length ((hd :: tl).eraseIdx i)
              (r - ((hd :: tl).getD i CP.dummyPiece).size)
              [(hd :: tl).getD i CP.dummyPiece] := by
        simp [CP.fillStock, CP.fillStockGo, hpf, hbf]
      obtain ⟨tl2, h1, _, _⟩ := CP.fillStockGo_spec tl.length ((hd :: tl).eraseIdx i)
        (r - ((hd :: tl).getD i CP.dummyPiece).size) [(hd :: tl).getD i CP.dummyPiece]
      refine ⟨(hd :: tl).getD i CP.dummyPiece, tl2, ?_, hbs.2.1, hbs.2.2.1, hbs.2.2.2⟩
      rw [hgo, h1]
      rfl

/-- Counterexample to claim C9 as stated: on a nonempty requirement list
whose only requirement is skipped as oversize, zero bars are produced but
`wastagePercentage` is the non-finite `0/0` (NaN, modelled `none`), not 0. -/
theorem claim_C9_counterexample :
    (CP.calculateCuttingPlan [⟨"a", 7000, 1⟩] (.single 6000)).cuts = []
    ∧ (CP.calculateCuttingPlan [⟨"a", 7000, 1⟩] (.single 6000)).stockUsed = 0
    ∧ (CP.calculateCuttingPlan [⟨"a", 7000, 1⟩] (.single 6000)).totalWastage = 0
    ∧ (CP.calculateCuttingPlan [⟨"a", 7000, 1⟩] (.single 6000)).wastagePercentage = none :=
  ⟨by decide, by decide, by decide, by decide⟩

/-- Claim C9, amended: for an empty requirement list the module's early
return yields empty cuts, zero stock used, zero wastage and a
`wastagePercentage` of 0, with no division performed; when a nonempty
requirement list leaves zero bars (all requirements skipped), the totals
are zero but `wastagePercentage` is `0/0` — NaN, not 0. -/
theorem claim_C9_empty_requirements (setting : CP.StockSetting) :
    CP.calculateCuttingPlan [] setting = ⟨[], 0, 0, some 0, [], [], []⟩ := rfl

/-- Claim C10: with multiple stock lengths, every bar (and every formatted
cut) of the returned plan uses one single stock length `c` drawn from the
supplied options — that of the candidate solution no other candidate
undercuts in wastage percentage (under JavaScript's NaN-aware `<`) — the
returned bars are exactly that candidate's, and when every requirement
fits every option the chosen candidate packs everything (no leftover). -/
theorem claim_C10_uniform_stock (reqs : List CP.Req) (ls : List Int)
    (hmulti : 2 ≤ ls.length)
    (hfit : ∀ r ∈ reqs, ∀ l ∈ ls, r.size ≤ l) :
    ∃ c ∈ ls,
      (CP.calculateCuttingPlan reqs (.multiple ls)).stockPieces
          = (CP.calculateSolutionForStockLength
              (CP.sortPiecesDesc (CP.processReqs (.multiple ls) reqs).1) c).stockPieces
      ∧ (∀ st ∈ (CP.calculateCuttingPlan reqs (.multiple ls)).stockPieces,
          st.stockLength = c)
      ∧ (∀ cut ∈ (CP.calculateCuttingPlan reqs (.multiple ls)).cuts,
          cut.stockLength = c)
      ∧ (∀ l ∈ ls, CP.jsLtOpt
            (CP.calculateSolutionForStockLength
              (CP.sortPiecesDesc (CP.processReqs (.multiple ls) reqs).1) l).wastagePercentage
            (CP.calculateSolutionForStockLength
              (CP.sortPiecesDesc (CP.processReqs (.multiple ls) reqs).1) c).wastagePercentage
          = false)
      ∧ (CP.calculateCuttingPlan reqs (.multiple ls)).leftover = [] := by
  have hlsne : ls ≠ [] := by
    intro h0
    rw [h0] at hmulti
    simp at hmulti
  by_cases hreq : reqs = []
  · subst hreq
    obtain ⟨c, hc⟩ := List.exists_mem_of_ne_nil ls hlsne
    refine ⟨c, hc, rfl, ?_, ?_, ?_, rfl⟩
    · intro st hst
      simp [CP.calculateCuttingPlan] at hst
    · intro cut hcut
      simp [CP.calculateCuttingPlan, CP.formatCuts] at hcut
    · intro l hl
      simp [CP.calculateSolutionForStockLength, CP.solveStocks, CP.pct, CP.jsLtOpt]
  · have hsols_ne : ((CP.sortIntAsc ls).map (CP.calculateSolutionForStockLength
        (CP.sortPiecesDesc (CP.processReqs (.multiple ls) reqs).1))) ≠ [] := by
      intro h0
      have hnil : CP.sortIntAsc ls = [] := by
        cases hs : CP.sortIntAsc ls with
        | nil => rfl
        | cons a as => rw [hs] at h0; simp at h0
      have hperm := CP.sortIntAsc_perm ls
      rw [hnil] at hperm
      exact hlsne hperm.nil_eq.symm
    obtain ⟨hmem, hmin⟩ := CP.pickBest_spec _ hsols_ne
    obtain ⟨c, hcmem, hceq⟩ := List.mem_map.mp hmem
    have hcls : c ∈ ls := (CP.sortIntAsc_perm ls).mem_iff.mp hcmem
    have hgood : ∀ q ∈ CP.sortPiecesDesc (CP.processReqs (.multiple ls) reqs).1,
        0 < q.size ∧ q.size ≤ c := by
      intro q hq
      have hq2 : q ∈ (CP.processReqs (.multiple ls) reqs).1 :=
        (CP.sortPiecesDesc_perm _).mem_iff.mp hq
      obtain ⟨r, hrmem, hval, _, hsz⟩ := CP.processReqs_mem _ reqs q hq2
      constructor
      · rw [hsz]
        simp only [CP.validReq, Bool.and_eq_true, decide_eq_true_eq] at hval
        exact hval.1
      · rw [hsz]
        exact hfit r hrmem c hcls
    have hlc : (CP.calculateSolutionForStockLength
        (CP.sortPiecesDesc (CP.processReqs (.multiple ls) reqs).1) c).leftover = [] :=
      CP.calculateSolution_leftover _ c hgood
    refine ⟨c, hcls, ?_, ?_, ?_, ?_, ?_⟩
    · simp only [CP.calculateCuttingPlan, if_neg hreq]
      rw [← hceq]
    · intro st hst
      simp only [CP.calculateCuttingPlan, if_neg hreq] at hst
      rw [← hceq] at hst
      exact (CP.calculateSolution_bars _ c st hst).1
    · intro cut hcut
      simp only [CP.calculateCuttingPlan, if_neg hreq] at hcut
      rw [← hceq] at hcut
      obtain ⟨st, hst, hcl⟩ := CP.formatCuts_stockLength _ cut hcut
      rw [hcl]
      exact (CP.calculateSolution_bars _ c st hst).1
    · intro l hl
      have hlm := List.mem_map_of_mem (CP.calculateSolutionForStockLength
          (CP.sortPiecesDesc (CP.processReqs (.multiple ls) reqs).1))
        ((CP.sortIntAsc_perm ls).mem_iff.mpr hl)
      have hx := hmin _ hlm
      rw [← hceq] at hx
      exact hx
    · simp only [CP.calculateCuttingPlan, if_neg hreq]
      rw [← hceq]
      exact hlc

/-- Witness for claim C10 at the concrete input `{1000 × 1}` with stock
options `[3000, 2000]`. -/
theorem claim_C10_witness :
    ∃ c ∈ [(3000 : Int), 2000],
      (CP.calculateCuttingPlan [⟨"a", 1000, 1⟩] (.multiple [3000, 2000])).stockPieces
          = (CP.calculateSolutionForStockLength
              (CP.sortPiecesDesc
                (CP.processReqs (.multiple [3000, 2000]) [⟨"a", 1000, 1⟩]).1) c).stockPieces
      ∧ (∀ st ∈ (CP.calculateCuttingPlan [⟨"a", 1000, 1⟩]
            (.multiple [3000, 2000])).stockPieces, st.stockLength = c)
      ∧ (∀ cut ∈ (CP.calculateCuttingPlan [⟨"a", 1000, 1⟩]
            (.multiple [3000, 2000])).cuts, cut.stockLength = c)
      ∧ (∀ l ∈ [(3000 : Int), 2000], CP.jsLtOpt
            (CP.calculateSolutionForStockLength
              (CP.sortPiecesDesc
                (CP.processReqs (.multiple [3000, 2000]) [⟨"a", 1000, 1⟩]).1) l).wastagePercentage
            (CP.calculateSolutionForStockLength
              (CP.sortPiecesDesc
                (CP.processReqs (.multiple [3000, 2000]) [⟨"a", 1000, 1⟩]).1) c).wastagePercentage
          = false)
      ∧ (CP.calculateCuttingPlan [⟨"a", 1000, 1⟩] (.multiple [3000, 2000])).leftover = [] :=
  claim_C10_uniform_stock [⟨"a", 1000, 1⟩] [3000, 2000] (by decide) (by decide)
